import Mathlib

/-!
Verification of the exclusion-rule core (`src/Exclusion.cpp` of timewarrior).

The file embeds `Exclusion::initialize`, `Exclusion::ranges`,
`Exclusion::serialize`, `Exclusion::additive`, `Exclusion::tokens` and
`Exclusion::rangeFromTimeBlock` shallowly in Lean.  The external
collaborators the spec declares out of scope (the `Datetime` calendar
primitive, the `Pig` token scanner, `split` / `join`, `Range::overlap`)
are modelled from the spec's collaborator contracts; every such
definition carries a doc comment starting with `Modelled from the spec:`.
-/

namespace Timew

/-- Modelled from the spec: a calendar timestamp with a strict total
order.  The external `Datetime` class is represented by its civil day
(days since 1970-01-01, which was a Thursday) and the second within that
day; the (year, month, day) triple of the original is in bijection with
`day`, so constructing "the same civil day at time hh:mm:ss" becomes
replacing `tod`.  Incrementing by one calendar day (`operator++`) adds
one to `day` and keeps `tod`. -/
structure Datetime where
  day : Int
  tod : Int
deriving Repr, DecidableEq

/-- Modelled from the spec: the strict order on timestamps
(`operator<` of the external Datetime). -/
def Datetime.ltb (a b : Datetime) : Bool :=
  a.day < b.day || (a.day == b.day && a.tod < b.tod)

/-- Modelled from the spec: `a <= b` on timestamps. -/
def Datetime.leb (a b : Datetime) : Bool :=
  !(Datetime.ltb b a)

/-- Modelled from the spec: `operator++`, increment by one calendar day. -/
def succDay (d : Datetime) : Datetime :=
  ⟨d.day + 1, d.tod⟩

/-- Modelled from the spec: `Datetime::dayOfWeek ()` of a timestamp,
0 = Sunday .. 6 = Saturday.  Day 0 (1970-01-01) was a Thursday (= 4). -/
def dowD (d : Datetime) : Int :=
  (d.day + 4) % 7

/-- Modelled from the spec: `Datetime::dayOfWeek (name)`, the external
weekday-name resolver: an index 0..6, or -1 when the name does not
resolve.  The claims only exercise the full lowercase English names. -/
def dayOfWeekName (s : String) : Int :=
  if s = "sunday" then 0
  else if s = "monday" then 1
  else if s = "tuesday" then 2
  else if s = "wednesday" then 3
  else if s = "thursday" then 4
  else if s = "friday" then 5
  else if s = "saturday" then 6
  else -1

/-- Modelled from the spec: civil date (y, m, d) to days since
1970-01-01 (the standard days-from-civil algorithm).  All uses in this
file have positive intermediate operands, where the integer-division
convention is irrelevant. -/
def daysFromCivil (y m d : Int) : Int :=
  let y2 := if m ≤ 2 then y - 1 else y
  let era := (if 0 ≤ y2 then y2 else y2 - 399) / 400
  let yoe := y2 - era * 400
  let mp := if 2 < m then m - 3 else m + 9
  let doy := (153 * mp + 2) / 5 + d - 1
  let doe := yoe * 365 + yoe / 4 - yoe / 100 + doy
  era * 146097 + doe - 719468

/-- The half-open interval `[start, end)` of `Range.h` (the C++ field
`end` is spelled `end_` because `end` is a Lean keyword). -/
structure Range where
  start : Datetime
  end_ : Datetime
deriving Repr, DecidableEq

/-- Modelled from the spec: later of two timestamps. -/
def Datetime.maxD (a b : Datetime) : Datetime :=
  if Datetime.ltb a b then b else a

/-- Modelled from the spec: earlier of two timestamps. -/
def Datetime.minD (a b : Datetime) : Datetime :=
  if Datetime.ltb a b then a else b

/-- Modelled from the spec: `Range::overlap` — two half-open intervals
overlap iff their intersection is non-empty, i.e. the later start is
strictly before the earlier end. -/
def overlap (a b : Range) : Bool :=
  Datetime.ltb (Datetime.maxD a.start b.start) (Datetime.minD a.end_ b.end_)

/-- Time carried by a half-open interval, in seconds. -/
def duration (r : Range) : Int :=
  (r.end_.day - r.start.day) * 86400 + (r.end_.tod - r.start.tod)

/-- The two error kinds of the core (section 7 of the spec): the
syntax error thrown by `Exclusion::initialize` (carrying the offending
line), the malformed-time-block error thrown by
`Exclusion::rangeFromTimeBlock` (carrying the offending block), and the
failure of the external date parser on token[3] of a day on/off rule. -/
inductive ExcError where
  | badLine (line : String)
  | malformedBlock (block : String)
  | badDate (text : String)
deriving Repr, DecidableEq

/-- Modelled from the spec: whitespace tokenizer (`split` of the shared
string utilities) — split on spaces, dropping empty tokens
(accumulator is the current token, reversed). -/
def splitAux : List Char → List Char → List String
  | [], acc => if acc.isEmpty then [] else [String.mk acc.reverse]
  | c :: rest, acc =>
    if c = ' ' then
      if acc.isEmpty then splitAux rest [] else String.mk acc.reverse :: splitAux rest []
    else splitAux rest (c :: acc)

/-- Modelled from the spec: whitespace split into tokens. -/
def split (line : String) : List String :=
  splitAux line.toList []

/-- Modelled from the spec: space-joined reconstruction (`join` of the
shared string utilities) — glue between consecutive items. -/
def join (sep : String) : List String → String
  | [] => ""
  | x :: xs => xs.foldl (fun acc t => acc ++ sep ++ t) x

/-- Modelled from the spec: digit value of a character. -/
def dv (c : Char) : Int :=
  (c.toNat : Int) - 48

/-- Modelled from the spec: `Pig::getHMS` — extract an `HH:MM:SS`
numeric triple from the head of the character stream, returning the
time as seconds within the day together with the remaining characters;
fails when the field shape is wrong.  No semantic validation of the
field values is performed (spec section 4.3). -/
def getHMS : List Char → Option (Int × List Char)
  | h1 :: h2 :: ':' :: m1 :: m2 :: ':' :: s1 :: s2 :: rest =>
    if h1.isDigit && h2.isDigit && m1.isDigit && m2.isDigit && s1.isDigit && s2.isDigit then
      some ((dv h1 * 10 + dv h2) * 3600 + (dv m1 * 10 + dv m2) * 60 + (dv s1 * 10 + dv s2), rest)
    else none
  | _ => none

/-- The decoded shape of a time-block token. -/
inductive BlockVal where
  | before (t : Int)
  | after (t : Int)
  | between (t1 t2 : Int)
deriving Repr, DecidableEq

/-- The block scan of `Exclusion::rangeFromTimeBlock`, separated from
the interval construction: `<HH:MM:SS`, `>HH:MM:SS`, or
`HH:MM:SS-HH:MM:SS` (the scan consumes a prefix; trailing characters
after a parsed form are ignored, as in the source, which never checks
for end of input). -/
def decodeBlock (block : String) : Option BlockVal :=
  match block.toList with
  | '<' :: rest => (getHMS rest).map (fun p => BlockVal.before p.1)
  | '>' :: rest => (getHMS rest).map (fun p => BlockVal.after p.1)
  | cs =>
    match getHMS cs with
    | some (t1, '-' :: r2) => (getHMS r2).map (fun p => BlockVal.between t1 p.1)
    | _ => none

/-- A block token is well-formed iff the scan of
`Exclusion::rangeFromTimeBlock` accepts it. -/
def wfBlock (block : String) : Bool :=
  (decodeBlock block).isSome

/-- The interval `Exclusion::rangeFromTimeBlock` builds for a decoded
block on the matched day: times are re-anchored to the civil day of
`s` (the source rebuilds from `start.year/month/day` plus the scanned
time), `>` runs to `e`, `<` starts at `s`.  The `none` case is never
used on well-formed blocks; it returns the empty interval at `s`. -/
def blockRangeP (block : String) (s e : Datetime) : Range :=
  match decodeBlock block with
  | some (BlockVal.before t) => ⟨s, ⟨s.day, t⟩⟩
  | some (BlockVal.after t) => ⟨⟨s.day, t⟩, e⟩
  | some (BlockVal.between t1 t2) => ⟨⟨s.day, t1⟩, ⟨s.day, t2⟩⟩
  | none => ⟨s, s⟩

/-- `Exclusion::rangeFromTimeBlock`: decode the block and build the
interval, or throw the malformed-block error carrying the block text. -/
def rangeFromTimeBlock (block : String) (s e : Datetime) : Except ExcError Range :=
  match decodeBlock block with
  | some (BlockVal.before t) => .ok ⟨s, ⟨s.day, t⟩⟩
  | some (BlockVal.after t) => .ok ⟨⟨s.day, t⟩, e⟩
  | some (BlockVal.between t1 t2) => .ok ⟨⟨s.day, t1⟩, ⟨s.day, t2⟩⟩
  | none => .error (.malformedBlock block)

/-- Modelled from the spec: the external date parser used for token[3]
of a day on/off rule, restricted to the `YYYY-MM-DD` shape the claims
exercise; yields midnight of that civil day. -/
def parseDate : List Char → Option Datetime
  | [y1, y2, y3, y4, '-', m1, m2, '-', d1, d2] =>
    if y1.isDigit && y2.isDigit && y3.isDigit && y4.isDigit &&
       m1.isDigit && m2.isDigit && d1.isDigit && d2.isDigit then
      some ⟨daysFromCivil (dv y1 * 1000 + dv y2 * 100 + dv y3 * 10 + dv y4)
              (dv m1 * 10 + dv m2) (dv d1 * 10 + dv d2), 0⟩
    else none
  | _ => none

/-- The `Exclusion` object: the verbatim token list and the additive
flag (`_tokens`, `_additive`). -/
structure Exclusion where
  _tokens : List String
  _additive : Bool
deriving Repr, DecidableEq

deriving instance DecidableEq for Except

/-- The rule parser (`parse` in the spec): split the line, validate the
three grammars, record the additive flag; throw the syntax error
carrying the line otherwise.  Branch structure follows the source:
day-on (4 tokens), then day-off (4 tokens), then weekday name. -/
def parseLine (line : String) : Except ExcError Exclusion :=
  if 2 ≤ (split line).length ∧ (split line).getD 0 "" = "exc" then
    if (split line).length = 4 ∧ (split line).getD 1 "" = "day" ∧ (split line).getD 2 "" = "on" then
      .ok ⟨split line, true⟩
    else if (split line).length = 4 ∧ (split line).getD 1 "" = "day" ∧ (split line).getD 2 "" = "off" then
      .ok ⟨split line, false⟩
    else if dayOfWeekName ((split line).getD 1 "") ≠ -1 then
      .ok ⟨split line, false⟩
    else .error (.badLine line)
  else .error (.badLine line)

/-- `Exclusion::tokens`. -/
def Exclusion.tokens (ex : Exclusion) : List String :=
  ex._tokens

/-- `Exclusion::additive`. -/
def Exclusion.additive (ex : Exclusion) : Bool :=
  ex._additive

/-- `Exclusion::serialize`: the literal marker prepended to the
space-joined token list (the source prepends `"exc"` to
`join (" ", _tokens)`). -/
def serialize (ex : Exclusion) : String :=
  "exc" ++ join " " ex._tokens

/-- `Exclusion::dump`. -/
def dump (ex : Exclusion) : String :=
  "Exclusion " ++ join " " ex._tokens ++ "\n"

/-- The number of iterations of the day-walk
`while (start < range.end) ... ++start` in `Exclusion::ranges`: the
visited timestamps are `bound.start` plus `k` whole days for
`k < numVisits` (see `visit_lt_iff`). -/
def numVisits (s e : Datetime) : Nat :=
  (e.day - s.day + (if s.tod < e.tod then 1 else 0)).toNat

/-- The timestamps visited by the day-walk whose own weekday
(`start.dayOfWeek ()`) equals the rule's target weekday, in visiting
order.  Each inherits the time-of-day of `bound.start`. -/
def matchedDays (s e : Datetime) (dow : Int) : List Datetime :=
  ((List.range (numVisits s e)).filter
      (fun k : Nat => decide (dowD ⟨s.day + (k : Int), s.tod⟩ = dow))).map
    (fun k : Nat => (⟨s.day + (k : Int), s.tod⟩ : Datetime))

/-- The inner loop of `Exclusion::ranges`: one interval per block token
on one matched day, left to right; the first malformed block throws. -/
def expandBlocks (d e : Datetime) : List String → Except ExcError (List Range)
  | [] => .ok []
  | b :: bs =>
    match rangeFromTimeBlock b d e with
    | .error msg => .error msg
    | .ok r =>
      match expandBlocks d e bs with
      | .error msg => .error msg
      | .ok rs => .ok (r :: rs)

/-- The outer loop of `Exclusion::ranges` over the matched days, in
visiting order; an error thrown on any day discards everything. -/
def expandDays (blocks : List String) : List Datetime → Except ExcError (List Range)
  | [] => .ok []
  | d :: ds =>
    match expandBlocks d (succDay d) blocks with
    | .error msg => .error msg
    | .ok rs =>
      match expandDays blocks ds with
      | .error msg => .error msg
      | .ok rest => .ok (rs ++ rest)

/-- The same double loop with the pure per-block interval: the complete
expansion, used to state that a successful `ranges` returns everything. -/
def expandPure (blocks : List String) : List Datetime → List Range
  | [] => []
  | d :: ds => blocks.map (fun b => blockRangeP b d (succDay d)) ++ expandPure blocks ds

/-- `Exclusion::ranges` on the token list: the day on/off branch builds
the single civil-day interval from token[3] and keeps it iff it
overlaps the bound; the weekday branch walks the bound one day at a
time and expands every block on every matched day; any other token
shape yields the empty vector (the source returns `results` untouched). -/
def rangesTok (t : List String) (bound : Range) : Except ExcError (List Range) :=
  if t.getD 1 "" = "day" ∧ (t.getD 2 "" = "on" ∨ t.getD 2 "" = "off") then
    match parseDate (t.getD 3 "").toList with
    | none => .error (.badDate (t.getD 3 ""))
    | some start =>
      let day : Range := ⟨start, succDay start⟩
      .ok (if overlap bound day then [day] else [])
  else if dayOfWeekName (t.getD 1 "") ≠ -1 then
    expandDays (t.drop 2) (matchedDays bound.start bound.end_ (dayOfWeekName (t.getD 1 "")))
  else .ok []

/-- `Exclusion::ranges`. -/
def Exclusion.ranges (ex : Exclusion) (bound : Range) : Except ExcError (List Range) :=
  rangesTok ex._tokens bound

/-- The complete, error-free projection of a rule onto a bound: the same
branches as `rangesTok`, with the pure per-block interval.  A successful
`ranges` call returns exactly this list (see the C9 theorem). -/
def pureExpansion (t : List String) (bound : Range) : List Range :=
  if t.getD 1 "" = "day" ∧ (t.getD 2 "" = "on" ∨ t.getD 2 "" = "off") then
    match parseDate (t.getD 3 "").toList with
    | none => []
    | some s => if overlap bound ⟨s, succDay s⟩ then [⟨s, succDay s⟩] else []
  else if dayOfWeekName (t.getD 1 "") ≠ -1 then
    expandPure (t.drop 2) (matchedDays bound.start bound.end_ (dayOfWeekName (t.getD 1 "")))
  else []

/-- The day-walk of `Exclusion::ranges` visits `bound.start` plus `k`
whole days exactly for `k < numVisits`: fidelity of `numVisits` to the
source's `while (start < range.end) ... ++start` loop. -/
theorem visit_lt_iff (s e : Datetime) (k : Nat) :
    Datetime.ltb ⟨s.day + (k : Int), s.tod⟩ e = true ↔ k < numVisits s e := by
  unfold Datetime.ltb numVisits
  simp only [Bool.or_eq_true, Bool.and_eq_true, decide_eq_true_eq, beq_iff_eq]
  split_ifs with h <;> omega

theorem rangeFromTimeBlock_wf {b : String} (s e : Datetime) (h : wfBlock b = true) :
    rangeFromTimeBlock b s e = .ok (blockRangeP b s e) := by
  unfold wfBlock at h
  unfold rangeFromTimeBlock blockRangeP
  cases hdec : decodeBlock b with
  | none => rw [hdec] at h; simp [Option.isSome] at h
  | some v => cases v <;> rfl

theorem rangeFromTimeBlock_not_wf {b : String} (s e : Datetime) (h : wfBlock b = false) :
    rangeFromTimeBlock b s e = .error (.malformedBlock b) := by
  unfold wfBlock at h
  unfold rangeFromTimeBlock
  cases hdec : decodeBlock b with
  | none => rfl
  | some v => rw [hdec] at h; simp [Option.isSome] at h

theorem rangeFromTimeBlock_ok_val {b : String} {s e : Datetime} {r : Range}
    (h : rangeFromTimeBlock b s e = .ok r) : r = blockRangeP b s e := by
  unfold rangeFromTimeBlock at h
  unfold blockRangeP
  cases hdec : decodeBlock b with
  | none => rw [hdec] at h; cases h
  | some v => rw [hdec] at h; cases v <;> cases h <;> rfl

theorem expandBlocks_ok (d e : Datetime) (blocks : List String)
    (h : ∀ b ∈ blocks, wfBlock b = true) :
    expandBlocks d e blocks = .ok (blocks.map (fun b => blockRangeP b d e)) := by
  induction blocks with
  | nil => rfl
  | cons b bs ih =>
    have hb : wfBlock b = true := h b (List.mem_cons_self b bs)
    have hbs : ∀ x ∈ bs, wfBlock x = true := fun x hx => h x (List.mem_cons_of_mem b hx)
    unfold expandBlocks
    rw [rangeFromTimeBlock_wf d e hb, ih hbs]
    rfl

theorem expandBlocks_ok_val {d e : Datetime} {blocks : List String} {rs : List Range}
    (h : expandBlocks d e blocks = .ok rs) :
    rs = blocks.map (fun b => blockRangeP b d e) := by
  induction blocks generalizing rs with
  | nil => cases h; rfl
  | cons b bs ih =>
    unfold expandBlocks at h
    cases hb : rangeFromTimeBlock b d e with
    | error msg => rw [hb] at h; cases h
    | ok r =>
      rw [hb] at h
      cases hbs : expandBlocks d e bs with
      | error msg => rw [hbs] at h; cases h
      | ok rest =>
        rw [hbs] at h
        cases h
        rw [List.map_cons, ← ih hbs, rangeFromTimeBlock_ok_val hb]

theorem expandDays_ok (blocks : List String) (ds : List Datetime)
    (h : ∀ b ∈ blocks, wfBlock b = true) :
    expandDays blocks ds = .ok (expandPure blocks ds) := by
  induction ds with
  | nil => rfl
  | cons d ds ih =>
    unfold expandDays expandPure
    rw [expandBlocks_ok d (succDay d) blocks h, ih]

theorem expandDays_ok_val {blocks : List String} {ds : List Datetime} {l : List Range}
    (h : expandDays blocks ds = .ok l) : l = expandPure blocks ds := by
  induction ds generalizing l with
  | nil => cases h; rfl
  | cons d ds ih =>
    unfold expandDays at h
    cases hb : expandBlocks d (succDay d) blocks with
    | error msg => rw [hb] at h; cases h
    | ok rs =>
      rw [hb] at h
      cases hds : expandDays blocks ds with
      | error msg => rw [hds] at h; cases h
      | ok rest =>
        rw [hds] at h
        cases h
        unfold expandPure
        rw [← ih hds, expandBlocks_ok_val hb]

theorem expandDays_single_bad {b : String} (hb : wfBlock b = false) (ds : List Datetime) :
    expandDays [b] ds =
      if ds.isEmpty then .ok [] else .error (.malformedBlock b) := by
  cases ds with
  | nil => rfl
  | cons d ds =>
    unfold expandDays expandBlocks
    rw [rangeFromTimeBlock_not_wf d (succDay d) hb]
    rfl

theorem expandPure_length (blocks : List String) (ds : List Datetime) :
    (expandPure blocks ds).length = ds.length * blocks.length := by
  induction ds with
  | nil => simp [expandPure]
  | cons d ds ih =>
    unfold expandPure
    rw [List.length_append, List.length_map, ih, List.length_cons]
    ring

theorem expandPure_singleton (b : String) (ds : List Datetime) :
    expandPure [b] ds = ds.map (fun d => blockRangeP b d (succDay d)) := by
  induction ds with
  | nil => rfl
  | cons d ds ih =>
    unfold expandPure
    rw [ih]
    rfl

theorem dayOfWeekName_day : dayOfWeekName "day" = -1 := by decide

/-- The weekday branch of `Exclusion::ranges`: for a rule
`exc <weekday> <block> ...` the result is the double loop over the
matched days and the block tokens. -/
theorem rangesTok_weekday (w : String) (blocks : List String) (bound : Range)
    (hw : dayOfWeekName w ≠ -1) :
    rangesTok ("exc" :: w :: blocks) bound =
      expandDays blocks (matchedDays bound.start bound.end_ (dayOfWeekName w)) := by
  have hwday : w ≠ "day" := by
    intro hc
    rw [hc] at hw
    exact hw dayOfWeekName_day
  have hget1 : ("exc" :: w :: blocks).getD 1 "" = w := rfl
  unfold rangesTok
  simp only [hget1]
  rw [if_neg (fun hc => hwday hc.1), if_pos hw]
  rfl

theorem matchedDays_mem {s e : Datetime} {dow : Int} {d : Datetime} :
    d ∈ matchedDays s e dow ↔
      ∃ k : Nat, k < numVisits s e ∧ d = ⟨s.day + (k : Int), s.tod⟩ ∧ dowD d = dow := by
  unfold matchedDays
  simp only [List.mem_map, List.mem_filter, List.mem_range, decide_eq_true_eq]
  constructor
  · rintro ⟨k, ⟨hk, hc⟩, rfl⟩
    exact ⟨k, hk, rfl, hc⟩
  · rintro ⟨k, hk, rfl, hc⟩
    exact ⟨k, ⟨hk, hc⟩, rfl⟩

theorem matchedDays_tod {s e : Datetime} {dow : Int} {d : Datetime}
    (h : d ∈ matchedDays s e dow) : d.tod = s.tod := by
  obtain ⟨k, -, rfl, -⟩ := matchedDays_mem.mp h
  rfl

theorem matchedDays_dow {s e : Datetime} {dow : Int} {d : Datetime}
    (h : d ∈ matchedDays s e dow) : dowD d = dow :=
  (matchedDays_mem.mp h).choose_spec.2.2

theorem matchedDays_pairwise (s e : Datetime) (dow : Int) :
    (matchedDays s e dow).Pairwise (fun a b => a.day < b.day) := by
  unfold matchedDays
  have hpw : (((List.range (numVisits s e)).filter
      (fun k : Nat => decide (dowD ⟨s.day + (k : Int), s.tod⟩ = dow)))).Pairwise (· < ·) :=
    (List.pairwise_lt_range _).sublist (List.filter_sublist _)
  exact hpw.map _ (fun a b hab => by show s.day + (a : Int) < s.day + (b : Int); omega)

theorem matchedDays_length (s e : Datetime) (dow : Int) :
    (matchedDays s e dow).length =
      ((List.range (numVisits s e)).filter
        (fun k : Nat => decide (dowD ⟨s.day + (k : Int), s.tod⟩ = dow))).length := by
  unfold matchedDays
  rw [List.length_map]

theorem matchedDays_ne_nil {s e : Datetime} {dow : Int} :
    matchedDays s e dow ≠ [] ↔
      ∃ k : Nat, k < numVisits s e ∧ dowD ⟨s.day + (k : Int), s.tod⟩ = dow := by
  constructor
  · intro h
    obtain ⟨d, hd⟩ := List.exists_mem_of_ne_nil _ h
    obtain ⟨k, hk, rfl, hc⟩ := matchedDays_mem.mp hd
    exact ⟨k, hk, hc⟩
  · rintro ⟨k, hk, hc⟩ hnil
    have hmem : (⟨s.day + (k : Int), s.tod⟩ : Datetime) ∈ matchedDays s e dow :=
      matchedDays_mem.mpr ⟨k, hk, rfl, hc⟩
    rw [hnil] at hmem
    cases hmem

/-- In any 28 consecutive civil days, exactly 4 carry a given weekday. -/
theorem count_dow_28 (d0 : Int) (dow : Int) (hdow : 0 ≤ dow) (hdow7 : dow < 7) :
    ((List.range 28).filter
      (fun k : Nat => decide ((d0 + (k : Int) + 4) % 7 = dow))).length = 4 := by
  have hcongr : ∀ k ∈ List.range 28,
      (decide ((d0 + (k : Int) + 4) % 7 = dow)) =
      (decide (((d0 + 4) % 7 + (k : Int)) % 7 = dow)) := by
    intro k _
    have hmm : (d0 + (k : Int) + 4) % 7 = ((d0 + 4) % 7 + (k : Int)) % 7 := by
      omega
    rw [hmm]
  rw [List.filter_congr hcongr]
  obtain ⟨r, hr0, hr7, hre⟩ :
      ∃ r : Int, 0 ≤ r ∧ r < 7 ∧ (d0 + 4) % 7 = r :=
    ⟨_, Int.emod_nonneg _ (by norm_num), Int.emod_lt_of_pos _ (by norm_num), rfl⟩
  simp only [hre]
  interval_cases r <;> interval_cases dow <;> decide

/-- Mapping commutes with filtering through the mapped predicate. -/
theorem filter_map_swap {α β : Type} (l : List α) (f : α → β) (q : β → Bool) :
    (l.filter (fun a => q (f a))).map f = (l.map f).filter q := by
  induction l with
  | nil => rfl
  | cons a l ih =>
    simp only [List.filter_cons, List.map_cons]
    cases hq : q (f a) <;> simp [hq, ih]

/-- The three token shapes of the grammar table in spec section 4.1:
the day-on override. -/
def dayOnShape (t : List String) : Prop :=
  t.length = 4 ∧ t.getD 0 "" = "exc" ∧ t.getD 1 "" = "day" ∧ t.getD 2 "" = "on"

/-- The day-off override shape. -/
def dayOffShape (t : List String) : Prop :=
  t.length = 4 ∧ t.getD 0 "" = "exc" ∧ t.getD 1 "" = "day" ∧ t.getD 2 "" = "off"

/-- The weekday-recurrence shape as the code accepts it: marker plus a
resolvable weekday name (any number of further tokens, including none). -/
def weekdayShape (t : List String) : Prop :=
  2 ≤ t.length ∧ t.getD 0 "" = "exc" ∧ dayOfWeekName (t.getD 1 "") ≠ -1

/-- C1: the claim says `parse(serialize(r))` succeeds with tokens and
additive flag identical to `r` for every successfully parsed rule.  The
code violates this for every rule: `serialize` prepends the literal
marker to the token list, whose first token already is the marker, so
the output starts with `excexc` and re-parsing raises the syntax error.
This theorem evaluates the code at the failing input
`exc monday 09:00:00-09:30:00`. -/
theorem c1_serialize_not_roundtrip :
    parseLine "exc monday 09:00:00-09:30:00" =
      .ok ⟨["exc", "monday", "09:00:00-09:30:00"], false⟩ ∧
    serialize ⟨["exc", "monday", "09:00:00-09:30:00"], false⟩ =
      "excexc monday 09:00:00-09:30:00" ∧
    parseLine "excexc monday 09:00:00-09:30:00" =
      .error (.badLine "excexc monday 09:00:00-09:30:00") := by
  decide

/-- C2: the claim (and the code's own syntax comment
`exc monday <block> [<block> ...]`) says a weekday rule with zero time
blocks fails with the syntax error.  The code accepts it: the weekday
branch of the parser only requires two tokens.  Evaluation at the
failing input `exc monday`; the accepted rule then expands to nothing. -/
theorem c2_zero_block_weekday_accepted :
    parseLine "exc monday" = .ok ⟨["exc", "monday"], false⟩ ∧
    Exclusion.ranges ⟨["exc", "monday"], false⟩
        ⟨⟨daysFromCivil 2024 12 23, 0⟩, ⟨daysFromCivil 2024 12 30, 0⟩⟩ = .ok [] := by
  decide

/-- C3 counterexample: the rule `exc monday 17:00:00-09:00:00` over the
single Monday 2024-12-23 yields the interval
[Mon 17:00:00, Mon 09:00:00) whose start is after its end, refuting
"every interval returned by ranges satisfies start <= end" and
"the explicit sub-range block form always yields an interval whose
start is not after its end". -/
theorem c3_cex :
    parseLine "exc monday 17:00:00-09:00:00" =
      .ok ⟨["exc", "monday", "17:00:00-09:00:00"], false⟩ ∧
    Exclusion.ranges ⟨["exc", "monday", "17:00:00-09:00:00"], false⟩
        ⟨⟨daysFromCivil 2024 12 23, 0⟩, ⟨daysFromCivil 2024 12 24, 0⟩⟩ =
      .ok [⟨⟨daysFromCivil 2024 12 23, 61200⟩, ⟨daysFromCivil 2024 12 23, 32400⟩⟩] ∧
    Datetime.leb ⟨daysFromCivil 2024 12 23, 61200⟩
      ⟨daysFromCivil 2024 12 23, 32400⟩ = false := by
  decide

/-- C3 (amended): the explicit sub-range block form yields the interval
from the first to the second scanned time on the matched civil day, and
that interval satisfies start <= end if and only if the first time is
at most the second; the expander performs no ordering check, so blocks
like 17:00:00-09:00:00 produce intervals with start after end. -/
theorem c3_subrange_order (block : String) (t1 t2 : Int) (s e : Datetime)
    (h : decodeBlock block = some (BlockVal.between t1 t2)) :
    rangeFromTimeBlock block s e = .ok ⟨⟨s.day, t1⟩, ⟨s.day, t2⟩⟩ ∧
    (Datetime.leb ⟨s.day, t1⟩ ⟨s.day, t2⟩ = true ↔ t1 ≤ t2) := by
  constructor
  · unfold rangeFromTimeBlock
    rw [h]
  · simp [Datetime.leb, Datetime.ltb, Int.not_lt]

/-- C3 witness: the amended theorem applied at the block
17:00:00-09:00:00 on the Monday of the counterexample. -/
theorem c3_subrange_order_w :
    rangeFromTimeBlock "17:00:00-09:00:00" ⟨20080, 0⟩ ⟨20081, 0⟩ =
      .ok ⟨⟨20080, 61200⟩, ⟨20080, 32400⟩⟩ :=
  (c3_subrange_order "17:00:00-09:00:00" 61200 32400 ⟨20080, 0⟩ ⟨20081, 0⟩ (by decide)).1

/-- C5: full characterization of the parser.  `parse` returns an
additive rule exactly for the day-on shape, a non-additive rule exactly
for the day-off shape or the weekday shape (when day-on does not
match), and otherwise fails with the syntax error carrying the line;
equivalently, it fails exactly when there are fewer than 2 tokens, the
marker mismatches, or token[1] neither forms a valid 4-token day on/off
rule nor resolves as a weekday name. -/
theorem c5_parse_characterization (line : String) :
    (parseLine line = .ok ⟨split line, true⟩ ↔ dayOnShape (split line)) ∧
    (parseLine line = .ok ⟨split line, false⟩ ↔
      ¬ dayOnShape (split line) ∧ (dayOffShape (split line) ∨ weekdayShape (split line))) ∧
    (parseLine line = .error (.badLine line) ↔
      ¬ dayOnShape (split line) ∧ ¬ dayOffShape (split line) ∧ ¬ weekdayShape (split line)) := by
  unfold parseLine dayOnShape dayOffShape weekdayShape
  split_ifs with h1 h2 h3 h4
  · refine ⟨iff_of_true rfl ⟨h2.1, h1.2, h2.2⟩,
      iff_of_false (fun hc => by simp at hc) (fun hc => hc.1 ⟨h2.1, h1.2, h2.2⟩),
      iff_of_false (fun hc => by simp at hc) (fun hc => hc.1 ⟨h2.1, h1.2, h2.2⟩)⟩
  · refine ⟨iff_of_false (fun hc => by simp at hc)
        (fun hd => h2 ⟨hd.1, hd.2.2.1, hd.2.2.2⟩),
      iff_of_true rfl ⟨fun hd => h2 ⟨hd.1, hd.2.2.1, hd.2.2.2⟩, Or.inl ⟨h3.1, h1.2, h3.2⟩⟩,
      iff_of_false (fun hc => by simp at hc) (fun hc => hc.2.1 ⟨h3.1, h1.2, h3.2⟩)⟩
  · refine ⟨iff_of_false (fun hc => by simp at hc)
        (fun hd => h2 ⟨hd.1, hd.2.2.1, hd.2.2.2⟩),
      iff_of_true rfl ⟨fun hd => h2 ⟨hd.1, hd.2.2.1, hd.2.2.2⟩, Or.inr ⟨h1.1, h1.2, h4⟩⟩,
      iff_of_false (fun hc => by simp at hc) (fun hc => hc.2.2 ⟨h1.1, h1.2, h4⟩)⟩
  · refine ⟨iff_of_false (fun hc => by simp at hc)
        (fun hd => h2 ⟨hd.1, hd.2.2.1, hd.2.2.2⟩),
      iff_of_false (fun hc => by simp at hc)
        (fun hc => hc.2.elim (fun hoff => h3 ⟨hoff.1, hoff.2.2.1, hoff.2.2.2⟩)
          (fun hwk => h4 hwk.2.2)),
      iff_of_true rfl ⟨fun hd => h2 ⟨hd.1, hd.2.2.1, hd.2.2.2⟩,
        fun hd => h3 ⟨hd.1, hd.2.2.1, hd.2.2.2⟩, fun hwk => h4 hwk.2.2⟩⟩
  · refine ⟨iff_of_false (fun hc => by simp at hc)
        (fun hd => h1 ⟨by rw [hd.1]; norm_num, hd.2.1⟩),
      iff_of_false (fun hc => by simp at hc)
        (fun hc => hc.2.elim (fun hoff => h1 ⟨by rw [hoff.1]; norm_num, hoff.2.1⟩)
          (fun hwk => h1 ⟨hwk.1, hwk.2.1⟩)),
      iff_of_true rfl ⟨fun hd => h1 ⟨by rw [hd.1]; norm_num, hd.2.1⟩,
        fun hd => h1 ⟨by rw [hd.1]; norm_num, hd.2.1⟩,
        fun hwk => h1 ⟨hwk.1, hwk.2.1⟩⟩⟩

/-- C4 counterexample: `exc friday notatime` parses, and over the bound
[Sat 2024-12-21 12:00:00, Fri 2024-12-27 06:00:00) — which contains
Friday instants (2024-12-27 00:00:00 lies inside it and is a Friday) —
`ranges` raises nothing and returns the empty sequence, because the
day-walk visits timestamps at 12:00:00 and stops before reaching the
trailing partial Friday.  This refutes "raises MalformedBlockError if
and only if the query bound contains at least one Friday". -/
theorem c4_cex :
    parseLine "exc friday notatime" = .ok ⟨["exc", "friday", "notatime"], false⟩ ∧
    Exclusion.ranges ⟨["exc", "friday", "notatime"], false⟩
        ⟨⟨daysFromCivil 2024 12 21, 43200⟩, ⟨daysFromCivil 2024 12 27, 21600⟩⟩ = .ok [] ∧
    Datetime.leb ⟨daysFromCivil 2024 12 21, 43200⟩ ⟨daysFromCivil 2024 12 27, 0⟩ = true ∧
    Datetime.ltb ⟨daysFromCivil 2024 12 27, 0⟩ ⟨daysFromCivil 2024 12 27, 21600⟩ = true ∧
    dowD ⟨daysFromCivil 2024 12 27, 0⟩ = 5 := by
  decide

/-- C4 (amended): `exc friday notatime` parses successfully, and for a
midnight-aligned bound `ranges` raises the malformed-block error
(carrying the block `notatime`) if and only if the bound contains a
Friday civil day; when it contains none, `ranges` raises nothing and
returns the empty sequence (the block is never decoded). -/
theorem c4_lazy_malformed (s e : Datetime) (hs : s.tod = 0) (he : e.tod = 0) :
    parseLine "exc friday notatime" = .ok ⟨["exc", "friday", "notatime"], false⟩ ∧
    (Exclusion.ranges ⟨["exc", "friday", "notatime"], false⟩ ⟨s, e⟩ =
        .error (.malformedBlock "notatime") ↔
      ∃ d : Int, s.day ≤ d ∧ d < e.day ∧ dowD ⟨d, 0⟩ = 5) ∧
    ((¬ ∃ d : Int, s.day ≤ d ∧ d < e.day ∧ dowD ⟨d, 0⟩ = 5) →
      Exclusion.ranges ⟨["exc", "friday", "notatime"], false⟩ ⟨s, e⟩ = .ok []) := by
  have hrw : Exclusion.ranges ⟨["exc", "friday", "notatime"], false⟩ ⟨s, e⟩ =
      expandDays ["notatime"] (matchedDays s e 5) := by
    show rangesTok ("exc" :: "friday" :: ["notatime"]) ⟨s, e⟩ = _
    rw [rangesTok_weekday "friday" ["notatime"] ⟨s, e⟩ (by decide)]
    rfl
  have hnum : numVisits s e = (e.day - s.day).toNat := by
    unfold numVisits
    rw [hs, he]
    simp
  have hwfF : wfBlock "notatime" = false := by decide
  rw [hrw, expandDays_single_bad hwfF]
  refine ⟨by decide, ?_, ?_⟩
  · constructor
    · intro hE
      by_cases hemp : (matchedDays s e 5).isEmpty
      · rw [if_pos hemp] at hE
        exact absurd hE (by simp)
      · have hne : matchedDays s e 5 ≠ [] := by
          simpa [List.isEmpty_iff] using hemp
        obtain ⟨k, hk, hdow⟩ := matchedDays_ne_nil.mp hne
        rw [hnum] at hk
        exact ⟨s.day + k, by omega, by omega, hdow⟩
    · rintro ⟨d, hd1, hd2, hdow⟩
      have hne : matchedDays s e 5 ≠ [] := by
        refine matchedDays_ne_nil.mpr ⟨(d - s.day).toNat, by rw [hnum]; omega, ?_⟩
        rw [show s.day + (((d - s.day).toNat : Nat) : Int) = d from by omega]
        exact hdow
      rw [if_neg (by simpa [List.isEmpty_iff] using hne)]
  · intro hnex
    have hemp : (matchedDays s e 5).isEmpty := by
      by_contra hc
      have hne : matchedDays s e 5 ≠ [] := by
        simpa [List.isEmpty_iff] using hc
      obtain ⟨k, hk, hdow⟩ := matchedDays_ne_nil.mp hne
      rw [hnum] at hk
      exact hnex ⟨s.day + k, by omega, by omega, hdow⟩
    rw [if_pos hemp]

/-- C4 witness: the amended theorem at the aligned week
[1970-01-01, 1970-01-08), which contains the Friday 1970-01-02. -/
theorem c4_lazy_malformed_w :
    Exclusion.ranges ⟨["exc", "friday", "notatime"], false⟩ ⟨⟨0, 0⟩, ⟨7, 0⟩⟩ =
      .error (.malformedBlock "notatime") :=
  (c4_lazy_malformed ⟨0, 0⟩ ⟨7, 0⟩ rfl rfl).2.1.mpr
    ⟨1, by norm_num, by norm_num, by decide⟩

/-- C6 counterexample: for the bound
[Mon 2024-12-23 06:00:00, Tue 2024-12-24 06:00:00), the day-walk
matches Monday 2024-12-23 (at 06:00:00), and the block `>17:00:00`
produces [Mon 17:00:00, Tue 06:00:00) — whose end is Tue 06:00:00, not
the Tue 00:00:00 the claim states: the interval end inherits the
bound's time-of-day. -/
theorem c6_cex :
    parseLine "exc monday >17:00:00" = .ok ⟨["exc", "monday", ">17:00:00"], false⟩ ∧
    Exclusion.ranges ⟨["exc", "monday", ">17:00:00"], false⟩
        ⟨⟨daysFromCivil 2024 12 23, 21600⟩, ⟨daysFromCivil 2024 12 24, 21600⟩⟩ =
      .ok [⟨⟨daysFromCivil 2024 12 23, 61200⟩, ⟨daysFromCivil 2024 12 24, 21600⟩⟩] ∧
    dowD ⟨daysFromCivil 2024 12 23, 21600⟩ = 1 ∧
    (⟨daysFromCivil 2024 12 24, 21600⟩ : Datetime) ≠ ⟨daysFromCivil 2024 12 24, 0⟩ := by
  decide

/-- C6 (amended): over a bound whose start is midnight-aligned, a
weekday rule with block `>17:00:00` yields exactly
[D 17:00:00, D+1 00:00:00) for every matched day D, and with block
`<09:00:00` exactly [D 00:00:00, D 09:00:00); without the alignment the
open ends inherit the bound's time-of-day (see the counterexample). -/
theorem c6_open_blocks (w : String) (s e : Datetime)
    (hw : dayOfWeekName w ≠ -1) (hs : s.tod = 0) :
    Exclusion.ranges ⟨["exc", w, ">17:00:00"], false⟩ ⟨s, e⟩ =
      .ok ((matchedDays s e (dayOfWeekName w)).map
        (fun d => (⟨⟨d.day, 61200⟩, ⟨d.day + 1, 0⟩⟩ : Range))) ∧
    Exclusion.ranges ⟨["exc", w, "<09:00:00"], false⟩ ⟨s, e⟩ =
      .ok ((matchedDays s e (dayOfWeekName w)).map
        (fun d => (⟨⟨d.day, 0⟩, ⟨d.day, 32400⟩⟩ : Range))) := by
  constructor
  · show rangesTok ("exc" :: w :: [">17:00:00"]) ⟨s, e⟩ = _
    rw [rangesTok_weekday w [">17:00:00"] ⟨s, e⟩ hw,
      expandDays_ok _ _ (fun b hb => by
        rw [show b = ">17:00:00" from by simpa using hb]
        decide),
      expandPure_singleton]
    congr 1
    refine List.map_congr_left ?_
    rintro ⟨dd, dt⟩ hd
    have htod : dt = s.tod := matchedDays_tod hd
    have hdec : decodeBlock ">17:00:00" = some (BlockVal.after 61200) := by decide
    unfold blockRangeP succDay
    rw [hdec, htod, hs]
  · show rangesTok ("exc" :: w :: ["<09:00:00"]) ⟨s, e⟩ = _
    rw [rangesTok_weekday w ["<09:00:00"] ⟨s, e⟩ hw,
      expandDays_ok _ _ (fun b hb => by
        rw [show b = "<09:00:00" from by simpa using hb]
        decide),
      expandPure_singleton]
    congr 1
    refine List.map_congr_left ?_
    rintro ⟨dd, dt⟩ hd
    have htod : dt = s.tod := matchedDays_tod hd
    have hdec : decodeBlock "<09:00:00" = some (BlockVal.before 32400) := by decide
    unfold blockRangeP
    rw [hdec, htod, hs]

/-- C6 witness: the amended theorem at the aligned week
[1970-01-01, 1970-01-08) for the weekday `monday`. -/
theorem c6_open_blocks_w :
    Exclusion.ranges ⟨["exc", "monday", ">17:00:00"], false⟩ ⟨⟨0, 0⟩, ⟨7, 0⟩⟩ =
      .ok ((matchedDays ⟨0, 0⟩ ⟨7, 0⟩ (dayOfWeekName "monday")).map
        (fun d => (⟨⟨d.day, 61200⟩, ⟨d.day + 1, 0⟩⟩ : Range))) :=
  (c6_open_blocks "monday" ⟨0, 0⟩ ⟨7, 0⟩ (by decide) rfl).1

/-- C7: a day on/off rule expands to at most one interval — the single
civil-day interval [date, date+1day) built from token[3], included iff
it overlaps the query bound — and the two concrete cases of the claim:
`exc day off 2024-12-25` over [2024-12-24, 2024-12-26) yields exactly
[2024-12-25 00:00:00, 2024-12-26 00:00:00), and over
[2024-01-01, 2024-06-01) yields the empty sequence. -/
theorem c7_day_override :
    (∀ (t : List String) (bound : Range) (d : Datetime),
        t.getD 1 "" = "day" → (t.getD 2 "" = "on" ∨ t.getD 2 "" = "off") →
        parseDate (t.getD 3 "").toList = some d →
        rangesTok t bound =
          .ok (if overlap bound ⟨d, succDay d⟩ then [⟨d, succDay d⟩] else [])) ∧
    parseLine "exc day off 2024-12-25" = .ok ⟨["exc", "day", "off", "2024-12-25"], false⟩ ∧
    Exclusion.ranges ⟨["exc", "day", "off", "2024-12-25"], false⟩
        ⟨⟨daysFromCivil 2024 12 24, 0⟩, ⟨daysFromCivil 2024 12 26, 0⟩⟩ =
      .ok [⟨⟨daysFromCivil 2024 12 25, 0⟩, ⟨daysFromCivil 2024 12 26, 0⟩⟩] ∧
    Exclusion.ranges ⟨["exc", "day", "off", "2024-12-25"], false⟩
        ⟨⟨daysFromCivil 2024 1 1, 0⟩, ⟨daysFromCivil 2024 6 1, 0⟩⟩ = .ok [] := by
  refine ⟨?_, by decide, by decide, by decide⟩
  intro t bound d h1 h2 h3
  unfold rangesTok
  rw [if_pos ⟨h1, h2⟩]
  simp only [h3]

/-- C7 witness: the universal part applied to the concrete day-on rule
`exc day on 2024-12-25`. -/
theorem c7_day_override_w :
    rangesTok ["exc", "day", "on", "2024-12-25"] ⟨⟨0, 0⟩, ⟨1, 0⟩⟩ =
      .ok (if overlap ⟨⟨0, 0⟩, ⟨1, 0⟩⟩
            ⟨⟨daysFromCivil 2024 12 25, 0⟩, succDay ⟨daysFromCivil 2024 12 25, 0⟩⟩
          then [⟨⟨daysFromCivil 2024 12 25, 0⟩, succDay ⟨daysFromCivil 2024 12 25, 0⟩⟩]
          else []) :=
  c7_day_override.1 ["exc", "day", "on", "2024-12-25"] ⟨⟨0, 0⟩, ⟨1, 0⟩⟩
    ⟨daysFromCivil 2024 12 25, 0⟩ rfl (Or.inl rfl) (by decide)

/-- C8: the rule `exc monday 09:00:00-09:30:00` expanded over any bound
spanning exactly 4 whole weeks (28 days) yields exactly 4 intervals,
each starting on a Monday, each of duration 30 minutes (1800 seconds),
in strictly increasing order of start (hence one per Monday). -/
theorem c8_weekday_recurrence (s : Datetime) :
    parseLine "exc monday 09:00:00-09:30:00" =
      .ok ⟨["exc", "monday", "09:00:00-09:30:00"], false⟩ ∧
    ∃ l, Exclusion.ranges ⟨["exc", "monday", "09:00:00-09:30:00"], false⟩
        ⟨s, ⟨s.day + 28, s.tod⟩⟩ = .ok l ∧
      l.length = 4 ∧
      (∀ r ∈ l, dowD r.start = 1 ∧ duration r = 1800) ∧
      l.Pairwise (fun a b => Datetime.ltb a.start b.start = true) := by
  refine ⟨by decide, ?_⟩
  have hrw : Exclusion.ranges ⟨["exc", "monday", "09:00:00-09:30:00"], false⟩
      ⟨s, ⟨s.day + 28, s.tod⟩⟩ =
      expandDays ["09:00:00-09:30:00"] (matchedDays s ⟨s.day + 28, s.tod⟩ 1) := by
    show rangesTok ("exc" :: "monday" :: ["09:00:00-09:30:00"]) _ = _
    rw [rangesTok_weekday "monday" _ _ (by decide)]
    rfl
  have hok := expandDays_ok ["09:00:00-09:30:00"] (matchedDays s ⟨s.day + 28, s.tod⟩ 1)
    (fun b hb => by
      rw [show b = "09:00:00-09:30:00" from by simpa using hb]
      decide)
  have hnum : numVisits s ⟨s.day + 28, s.tod⟩ = 28 := by
    unfold numVisits
    simp
  have hdec : decodeBlock "09:00:00-09:30:00" = some (BlockVal.between 32400 34200) := by
    decide
  refine ⟨expandPure ["09:00:00-09:30:00"] (matchedDays s ⟨s.day + 28, s.tod⟩ 1),
    by rw [hrw, hok], ?_, ?_, ?_⟩
  · rw [expandPure_length, matchedDays_length, hnum]
    simpa using count_dow_28 s.day 1 (by norm_num) (by norm_num)
  · rw [expandPure_singleton]
    intro r hr
    obtain ⟨d, hd, rfl⟩ := List.mem_map.mp hr
    have hdow := matchedDays_dow hd
    constructor
    · show dowD (blockRangeP "09:00:00-09:30:00" d (succDay d)).start = 1
      unfold blockRangeP
      rw [hdec]
      exact hdow
    · show duration (blockRangeP "09:00:00-09:30:00" d (succDay d)) = 1800
      unfold blockRangeP
      rw [hdec]
      unfold duration
      simp
  · rw [expandPure_singleton]
    refine (matchedDays_pairwise s ⟨s.day + 28, s.tod⟩ 1).map _ ?_
    intro a b hab
    show Datetime.ltb (blockRangeP "09:00:00-09:30:00" a (succDay a)).start
      (blockRangeP "09:00:00-09:30:00" b (succDay b)).start = true
    unfold blockRangeP
    rw [hdec]
    simp [Datetime.ltb]
    omega

/-- C8 witness: the theorem applied at the midnight-aligned start
1970-01-01. -/
theorem c8_weekday_recurrence_w :
    parseLine "exc monday 09:00:00-09:30:00" =
      .ok ⟨["exc", "monday", "09:00:00-09:30:00"], false⟩ :=
  (c8_weekday_recurrence ⟨0, 0⟩).1

/-- C9: expansion is atomic — for every token list and bound, `ranges`
either fails with an error, or succeeds returning the complete
expansion (never a proper prefix of it alongside an error); the rule
itself is a pure value and is unchanged by expansion. -/
theorem c9_atomic (t : List String) (bound : Range) :
    (∃ msg, rangesTok t bound = .error msg) ∨
    rangesTok t bound = .ok (pureExpansion t bound) := by
  unfold rangesTok pureExpansion
  split_ifs with h1 h2
  · cases hp : parseDate (t.getD 3 "").toList with
    | none => exact Or.inl ⟨_, rfl⟩
    | some d => exact Or.inr rfl
  · cases hE : expandDays (t.drop 2)
        (matchedDays bound.start bound.end_ (dayOfWeekName (t.getD 1 ""))) with
    | error msg => exact Or.inl ⟨msg, rfl⟩
    | ok l => exact Or.inr (by rw [expandDays_ok_val hE])
  · exact Or.inr rfl

/-- C9 witness: the dichotomy at a concrete rule and bound. -/
theorem c9_atomic_w :
    (∃ msg, rangesTok ["exc", "monday", ">17:00:00"] ⟨⟨0, 0⟩, ⟨7, 0⟩⟩ = .error msg) ∨
    rangesTok ["exc", "monday", ">17:00:00"] ⟨⟨0, 0⟩, ⟨7, 0⟩⟩ =
      .ok (pureExpansion ["exc", "monday", ">17:00:00"] ⟨⟨0, 0⟩, ⟨7, 0⟩⟩) :=
  c9_atomic ["exc", "monday", ">17:00:00"] ⟨⟨0, 0⟩, ⟨7, 0⟩⟩

/-- The claim's notion of matched day count for C10: the civil days `d`
with `bound.start.day <= d < bound.end.day` whose weekday matches (for
midnight-aligned bounds these are exactly the calendar days lying in
the bound). -/
def matchingCivilDays (s e : Datetime) (dow : Int) : List Int :=
  ((List.range ((e.day - s.day).toNat)).map (fun k : Nat => s.day + (k : Int))).filter
    (fun d => decide (dowD ⟨d, 0⟩ = dow))

/-- C10 counterexample: the weekday rule `exc tuesday 09:00:00-09:30:00`
with one well-formed block, over the bound
[Mon 2024-12-23 12:00:00, Tue 2024-12-24 12:00:00): the calendar
Tuesday 2024-12-24 overlaps the bound, so the claim predicts
m*b = 1*1 = 1 interval, but the walk only visits Mon 12:00:00 and the
result is empty. -/
theorem c10_cex :
    parseLine "exc tuesday 09:00:00-09:30:00" =
      .ok ⟨["exc", "tuesday", "09:00:00-09:30:00"], false⟩ ∧
    wfBlock "09:00:00-09:30:00" = true ∧
    Exclusion.ranges ⟨["exc", "tuesday", "09:00:00-09:30:00"], false⟩
        ⟨⟨daysFromCivil 2024 12 23, 43200⟩, ⟨daysFromCivil 2024 12 24, 43200⟩⟩ = .ok [] ∧
    dowD ⟨daysFromCivil 2024 12 24, 0⟩ = 2 ∧
    overlap ⟨⟨daysFromCivil 2024 12 23, 43200⟩, ⟨daysFromCivil 2024 12 24, 43200⟩⟩
      ⟨⟨daysFromCivil 2024 12 24, 0⟩, ⟨daysFromCivil 2024 12 25, 0⟩⟩ = true := by
  decide

/-- C10 (amended): for a weekday rule with all blocks well-formed over
a midnight-aligned bound, `ranges` succeeds and returns exactly the
double loop `expandPure` over the matched days; the matched days are
exactly the matching civil days of the bound in strictly increasing
(chronological) order, and the result has `m * b` intervals, where `m`
counts the matching civil days and `b` the blocks; within one matched
day the intervals follow the block token order (the `expandPure`
equation).  For bounds that are not midnight-aligned the day-walk can
miss a trailing partial day (see the counterexample). -/
theorem c10_expansion (w : String) (blocks : List String) (s e : Datetime)
    (hw : dayOfWeekName w ≠ -1) (hwf : ∀ b ∈ blocks, wfBlock b = true)
    (hs : s.tod = 0) (he : e.tod = 0) :
    Exclusion.ranges ⟨"exc" :: w :: blocks, false⟩ ⟨s, e⟩ =
      .ok (expandPure blocks (matchedDays s e (dayOfWeekName w))) ∧
    (matchedDays s e (dayOfWeekName w)).map (fun d => d.day) =
      matchingCivilDays s e (dayOfWeekName w) ∧
    (expandPure blocks (matchedDays s e (dayOfWeekName w))).length =
      (matchingCivilDays s e (dayOfWeekName w)).length * blocks.length ∧
    (matchedDays s e (dayOfWeekName w)).Pairwise (fun a b => a.day < b.day) := by
  have hnum : numVisits s e = (e.day - s.day).toNat := by
    unfold numVisits
    rw [hs, he]
    simp
  have hmap : (matchedDays s e (dayOfWeekName w)).map (fun d => d.day) =
      matchingCivilDays s e (dayOfWeekName w) := by
    unfold matchedDays matchingCivilDays
    rw [hnum, List.map_map, ← filter_map_swap]
    rfl
  refine ⟨?_, hmap, ?_, matchedDays_pairwise s e _⟩
  · show rangesTok ("exc" :: w :: blocks) ⟨s, e⟩ = _
    rw [rangesTok_weekday w blocks ⟨s, e⟩ hw, expandDays_ok blocks _ hwf]
  · rw [expandPure_length, ← hmap, List.length_map]

/-- C10 witness: the amended theorem at a two-block Monday rule over
the aligned fortnight [1970-01-01, 1970-01-15). -/
theorem c10_expansion_w :
    Exclusion.ranges ⟨"exc" :: "monday" :: ["09:00:00-09:30:00", ">17:00:00"], false⟩
        ⟨⟨0, 0⟩, ⟨14, 0⟩⟩ =
      .ok (expandPure ["09:00:00-09:30:00", ">17:00:00"]
        (matchedDays ⟨0, 0⟩ ⟨14, 0⟩ (dayOfWeekName "monday"))) :=
  (c10_expansion "monday" ["09:00:00-09:30:00", ">17:00:00"] ⟨0, 0⟩ ⟨14, 0⟩
    (by decide) (by decide) rfl rfl).1

/-- C5 witness: the characterization applied to a concrete day-on line. -/
theorem c5_parse_characterization_w :
    parseLine "exc day on 2024-12-25" = .ok ⟨split "exc day on 2024-12-25", true⟩ :=
  (c5_parse_characterization "exc day on 2024-12-25").1.mpr
    (by unfold dayOnShape; decide)

end Timew
